import Mathlib

/-!
# Verification of the chess-MDP reinforcement-learning core (`src/mdp.rs`)

Shallow embedding of the MDP conversion module of the rust chess bot.
Floating-point numbers (`f64`) are modelled as exact rationals `ℚ`; all
arithmetic performed by the embedded code on them is exact small-number
arithmetic, and no NaN/infinity values arise from the modelled inputs
(the only use of `f64::NEG_INFINITY`, as the initial running maximum of a
fold that is always overwritten by the first candidate's score, is
modelled by seeding the fold with the first candidate's score, which is
what the source computes since `score >= NEG_INFINITY` always holds).

The game-rules engine (the `chess` crate) is an external collaborator.
The parts of it the module's data flow depends on are embedded from the
crate's documented behaviour:
* `BitBoard` is a set of the 64 squares (square 0 = a1, …, 63 = h8,
  index = rank·8 + file);
* `BitBoard::reverse_colors` is a byte swap of the underlying 64-bit
  word, i.e. a rank mirror: bit `b` of the result is bit `b XOR 56` of
  the input;
* `BitBoard`'s `Display` prints the squares from bit 63 down to bit 0
  (as `X` or `.` tokens), so after the module strips spaces and
  newlines, string cell `i` reports bit `63 - i`;
* `Square::from_str` accepts a string whose first character is a file
  `a`..`h` and second a rank `1`..`8` (anything longer is ignored
  beyond the first two characters) and yields square rank·8+file;
* `ChessMove`'s `Display` prints source square, destination square and,
  when present, the promotion piece's lowercase letter;
* `MoveGen::new_legal` is an engine query, modelled as a `legalMoves`
  field of the board, as are `Board::status` and `Board::side_to_move`;
* the `Game` type used by the self-play driver is abstracted as an
  engine-operations record (`GameOps`), since the core only drives it
  through `result`, `current_position`, `make_move` and
  `can_declare_draw`.

Rust panics reachable in the embedded code (`panic!()` on malformed
square tokens and on a missing move) abort the process; they are
modelled as early returns producing no further data, and every theorem
below quantifies only over data the code actually produces.
-/

/-- The six chess piece kinds (the `chess` crate's `Piece`). -/
inductive Piece where
  | Pawn | Knight | Bishop | Rook | Queen | King
deriving DecidableEq, Repr

/-- The two sides (the `chess` crate's `Color`). -/
inductive Color where
  | White | Black
deriving DecidableEq, Repr

/-- The `chess` crate's `BoardStatus`. -/
inductive BoardStatus where
  | Ongoing | Stalemate | Checkmate
deriving DecidableEq, Repr

/-- A bitboard: the set of occupied squares, square `0` = a1 … `63` = h8. -/
def BitBoard : Type := Fin 64 → Bool

/-- `XOR 56` keeps a square index below 64 (it only touches the rank bits). -/
theorem xor56_lt : ∀ n, n < 64 → n ^^^ 56 < 64 := by decide

/-- Intersection of two bitboards (`BitAnd` on the underlying `u64`). -/
def bb_and (x y : BitBoard) : BitBoard := fun i => x i && y i

/-- The `chess` crate's `BitBoard::reverse_colors`: a byte swap of the
underlying `u64`, i.e. the rank mirror square `b` ↔ square `b XOR 56`. -/
def reverse_colors (x : BitBoard) : BitBoard :=
  fun i => x ⟨i.val ^^^ 56, xor56_lt i.val i.isLt⟩

/-- The `chess` crate's `BitBoard::from_square`: the singleton bitboard. -/
def from_square (sq : Fin 64) : BitBoard := fun i => i == sq

/-- A chess move as produced by the crate's move generator: source and
destination squares plus an optional promotion piece. -/
structure ChessMove where
  src : Fin 64
  dst : Fin 64
  promotion : Option Piece
deriving DecidableEq, Repr

/-- Lowercase letter of a piece (the crate's `Display` for `Piece`). -/
def pieceChar : Piece → Char
  | .Pawn => 'p' | .Knight => 'n' | .Bishop => 'b'
  | .Rook => 'r' | .Queen => 'q' | .King => 'k'

/-- The two characters of a square token: file letter then rank digit
(the crate's `Display` for `Square`). -/
def squareChars (sq : Fin 64) : List Char :=
  [Char.ofNat (97 + sq.val % 8), Char.ofNat (49 + sq.val / 8)]

/-- The crate's `Display` for `ChessMove`: source token, destination
token, then the promotion piece's letter when present (UCI format). -/
def moveToUci (m : ChessMove) : String :=
  String.mk (squareChars m.src ++ squareChars m.dst ++
    (match m.promotion with
     | none => []
     | some p => [pieceChar p]))

/-- The board, as seen through the engine queries the module performs:
piece-kind occupancy, colour occupancy, side to move, terminal status and
the legal-move enumeration (in the engine's stable order). -/
structure Board where
  pieces : Piece → BitBoard
  color_combined : Color → BitBoard
  side_to_move : Color
  status : BoardStatus
  legalMoves : List ChessMove

/-- `bitboard_color_piece` of `src/mdp.rs`: the instances of `piece` of
colour `color` in `b`, rank-mirrored when the player is not white. -/
def bitboard_color_piece (b : Board) (piece : Piece) (color : Color)
    (player_white : Bool) : BitBoard :=
  let bitboard_piece := b.pieces piece
  let bitboard_color := b.color_combined color
  if player_white then
    bb_and bitboard_piece bitboard_color
  else
    reverse_colors (bb_and bitboard_piece bitboard_color)

/-- The string cell `i` of the crate's `BitBoard` display reports bit
`63 - i`. -/
def dispSq (i : Fin 64) : Fin 64 := ⟨63 - i.val, by omega⟩

/-- `bitboard_to_vec` of `src/mdp.rs`: renders the bitboard through the
crate's `Display`, strips spaces and newlines, and reads the 64 cells in
order, `1` for `X` and `0` otherwise. -/
def bitboard_to_vec (bitboard : BitBoard) : List ℚ :=
  (List.finRange 64).map (fun i => if bitboard (dispSq i) then (1 : ℚ) else 0)

/-- `get_state` of `src/mdp.rs`: 12 concatenated 64-cell blocks; the six
white blocks (pawn, bishop, knight, rook, queen, king) then the six black
blocks when the player is white, the black blocks first otherwise, each
block mirrored via `bitboard_color_piece` when the player is not white. -/
def get_state (b : Board) (player_white : Bool) : List ℚ :=
  let white_state :=
    bitboard_to_vec (bitboard_color_piece b .Pawn .White player_white) ++
    bitboard_to_vec (bitboard_color_piece b .Bishop .White player_white) ++
    bitboard_to_vec (bitboard_color_piece b .Knight .White player_white) ++
    bitboard_to_vec (bitboard_color_piece b .Rook .White player_white) ++
    bitboard_to_vec (bitboard_color_piece b .Queen .White player_white) ++
    bitboard_to_vec (bitboard_color_piece b .King .White player_white)
  let black_state :=
    bitboard_to_vec (bitboard_color_piece b .Pawn .Black player_white) ++
    bitboard_to_vec (bitboard_color_piece b .Bishop .Black player_white) ++
    bitboard_to_vec (bitboard_color_piece b .Knight .Black player_white) ++
    bitboard_to_vec (bitboard_color_piece b .Rook .Black player_white) ++
    bitboard_to_vec (bitboard_color_piece b .Queen .Black player_white) ++
    bitboard_to_vec (bitboard_color_piece b .King .Black player_white)
  if player_white then white_state ++ black_state
  else black_state ++ white_state

/-- The crate's `Square::from_str` on a character list: first character a
file `a`..`h`, second a rank `1`..`8` (extra characters ignored), square
index rank·8 + file; `none` on anything else. -/
def square_from_str (s : List Char) : Option (Fin 64) :=
  match s with
  | f :: r :: _ =>
    if h : 97 ≤ f.toNat ∧ f.toNat ≤ 104 ∧ 49 ≤ r.toNat ∧ r.toNat ≤ 56 then
      some ⟨(r.toNat - 49) * 8 + (f.toNat - 97), by omega⟩
    else
      none
  | _ => none

/-- `vec_from_board_square` of `src/mdp.rs`: the 64-cell vector of the
singleton bitboard of the parsed square, mirrored when the player is not
white.  The source `panic!()`s when the square token does not parse; that
aborted computation is modelled as the empty vector (it is provably never
reached from the move strings the drivers produce). -/
def vec_from_board_square (square_str : List Char) (player_white : Bool) :
    List ℚ :=
  match square_from_str square_str with
  | none => []
  | some square =>
    let square_bitboard :=
      if player_white then from_square square
      else reverse_colors (from_square square)
    bitboard_to_vec square_bitboard

/-- `get_action` of `src/mdp.rs`: origin one-hot block, destination
one-hot block, then the 4-cell promotion block decoded from the 5th
character of the UCI string (`b`/`n`/`r` one-hot, any other 5th character
the queen slot, all-zero when the string has only 4 characters). -/
def get_action (uci_str : String) (player_white : Bool) : List ℚ :=
  let cs := uci_str.data
  let init_str := cs.take 2
  let final_str := (cs.drop 2).take 2
  let promote_str := if cs.length > 4 then (cs.drop 4).take 1 else []
  let init_pos := vec_from_board_square init_str player_white
  let final_pos := vec_from_board_square final_str player_white
  let promotion : List ℚ :=
    if promote_str = [] then [0, 0, 0, 0]
    else if promote_str = ['b'] then [1, 0, 0, 0]
    else if promote_str = ['n'] then [0, 1, 0, 0]
    else if promote_str = ['r'] then [0, 0, 1, 0]
    else [0, 0, 0, 1]
  init_pos ++ final_pos ++ promotion

/-- `point_difference` of `src/mdp.rs`: iterate the 12 blocks of 64
cells, weight cells by `i % 6` (pawn 1, bishop/knight 3, rook 5, queen
10, king 0), mover blocks positively and opponent blocks negatively, then
double the total.  The source indexes `state[j]` for `j < 768`, a panic
on shorter vectors; the model reads `getD j 0`, and every theorem about
this function carries the length-768 hypothesis its callers establish, so
the default is never read. -/
def point_difference (state : List ℚ) : ℚ :=
  let count :=
    (List.range 12).foldl (fun count i =>
      (List.range 64).foldl (fun count j' =>
        let j := i * 64 + j'
        let val := if i < 6 then state.getD j 0 else -(state.getD j 0)
        count +
          (if i % 6 = 0 then val
           else if i % 6 = 1 ∨ i % 6 = 2 then 3 * val
           else if i % 6 = 3 then 5 * val
           else if i % 6 = 4 then 10 * val
           else 0)) count) 0
  2 * count

/-- `get_reward` of `src/mdp.rs`: 0 for ongoing and stalemate boards,
and on checkmate +100 when the checkmated side (the side to move) is the
player's opponent, −100 when it is the player. -/
def get_reward (b : Board) (player_white : Bool) : ℚ :=
  match b.status with
  | .Ongoing => 0
  | .Stalemate => 0
  | .Checkmate =>
    if player_white then
      if b.side_to_move = Color.Black then 100 else -100
    else
      if b.side_to_move = Color.White then 100 else -100

/-- The score `compute_q_max` and `move_by_policy` assign a candidate
move: the approximator applied to the state concatenated with the move's
action vector. -/
def qscore (q_network : List ℚ → ℚ) (state : List ℚ) (player_white : Bool)
    (m : ChessMove) : ℚ :=
  q_network (state ++ get_action (moveToUci m) player_white)

/-- `compute_q_max` of `src/mdp.rs`: 0 when the board has no legal move,
otherwise the running maximum (`score >= high_score` replaces) of the
scores of all legal moves; the `NEG_INFINITY` seed is modelled by seeding
the fold with the first move's score. -/
def compute_q_max (b : Board) (state : List ℚ) (q_network : List ℚ → ℚ)
    (player_white : Bool) : ℚ :=
  match b.legalMoves with
  | [] => 0
  | m :: ms =>
    ms.foldl (fun high_score m' =>
        let score := qscore q_network state player_white m'
        if high_score ≤ score then score else high_score)
      (qscore q_network state player_white m)

/-- One recorded transition (`Experience` of `src/mdp.rs`). -/
structure Experience where
  state : List ℚ
  action : List ℚ
  reward : ℚ
  next_state : List ℚ
  next_board : Board

/-- The Bellman label `learn_from_experience` computes for a transition:
`reward + gamma * compute_q_max(next_board, next_state)`. -/
def bellman_label (e : Experience) (gamma : ℚ) (q_network : List ℚ → ℚ)
    (player_white : Bool) : ℚ :=
  e.reward + gamma * compute_q_max e.next_board e.next_state q_network player_white

/-- `learn_from_experience` of `src/mdp.rs`.  The policy network's `fit`
is an opaque external capability; the embedding records the sequence of
fit calls the function issues: one `(state ‖ action, bellman label)` pair
per experience, in replay order. -/
def learn_from_experience (replay_memory : List Experience) (gamma : ℚ)
    (q_network : List ℚ → ℚ) (player_white : Bool) : List (List ℚ × ℚ) :=
  replay_memory.map (fun e =>
    (e.state ++ e.action, bellman_label e gamma q_network player_white))

/-- One step of `move_by_policy`'s loop: replace the running best when
the candidate's score is `≥` the running maximum; the `none` accumulator
is the `(NEG_INFINITY, None)` initial state, which the first candidate
always replaces. -/
def mbpStep (nn : List ℚ → ℚ) (state : List ℚ) (player_white : Bool)
    (acc : Option (ℚ × ChessMove)) (m : ChessMove) : Option (ℚ × ChessMove) :=
  let score := qscore nn state player_white m
  match acc with
  | none => some (score, m)
  | some (high_score, best) =>
    if high_score ≤ score then some (score, m) else some (high_score, best)

/-- `move_by_policy` of `src/mdp.rs`: `none` when there is no legal move,
otherwise the last legal move whose score is `≥` every earlier score. -/
def move_by_policy (nn : List ℚ → ℚ) (b : Board) (player_white : Bool) :
    Option ChessMove :=
  if b.legalMoves.isEmpty then none
  else
    let state := get_state b player_white
    (b.legalMoves.foldl (mbpStep nn state player_white) none).map Prod.snd

/-- `make_random_move` of `src/mdp.rs`: `none` when there is no legal
move, otherwise the legal move at the sampled index (the random draw in
`0..=len-1` is modelled as an arbitrary natural reduced mod the length). -/
def make_random_move (b : Board) (k : Nat) : Option ChessMove :=
  if b.legalMoves.isEmpty then none
  else b.legalMoves.get? (k % b.legalMoves.length)

/-- The exploration gate of `play_against_self`: the White move is taken
from the policy when the turn's single uniform draw exceeds `0.5`, and
from the uniform-random chooser otherwise. -/
def moved_by_policy_gate (r : ℚ) : Bool := decide (mkRat 1 2 < r)

/-- The retention gate of `play_against_self`: the completed (A-move,
B-reply) transition is appended to the replay memory only when the same
turn draw is below `0.2`. -/
def retain_gate (r : ℚ) : Bool := decide (r < mkRat 1 5)

/-- The engine operations `play_against_self` drives the `chess` crate's
`Game` through, abstracted over the game-state type. -/
structure GameOps (G : Type) where
  result : G → Option Unit
  current_position : G → Board
  make_move : G → ChessMove → G
  can_declare_draw : G → Bool

/-- The loop of `play_against_self` of `src/mdp.rs`, one recursion step
per iteration.  `draws` supplies the per-iteration randomness (the turn's
uniform draw and the random-move index); it also serves as fuel, the
source's unbounded loop being run for at most `draws.length` iterations.
`cur` is the mutable `curr_experience` struct threaded through the loop,
`mem` the accumulated `experience_memory`.  The source's `panic!()` on a
missing move is modelled as stopping with the memory accumulated so far
(a panic records nothing further). -/
def playLoop {G : Type} (ops : GameOps G) (policy_network : List ℚ → ℚ)
    (g : G) (cur : Experience) (mem : List Experience) :
    List (ℚ × Nat) → List Experience
  | [] => mem
  | (r, k) :: rest =>
    match ops.result g with
    | some _ => mem
    | none =>
      let board := ops.current_position g
      let white_move_policy := move_by_policy policy_network board true
      let white_move_random := make_random_move board k
      match
        (if moved_by_policy_gate r then white_move_policy
         else white_move_random) with
      | none => mem
      | some selected_move =>
        let cur := { cur with state := get_state board true }
        let g := ops.make_move g selected_move
        let cur := { cur with
          action := get_action (moveToUci selected_move) true }
        let board := ops.current_position g
        let board_state := get_state board true
        match ops.result g with
        | some _ =>
          mem ++ [{ cur with
            reward := get_reward board true
            next_state := board_state
            next_board := board }]
        | none =>
          if ops.can_declare_draw g then
            mem ++ [{ cur with
              reward := point_difference board_state
              next_state := board_state
              next_board := board }]
          else
            match move_by_policy policy_network board false with
            | none => mem
            | some black_move =>
              let g := ops.make_move g black_move
              let board := ops.current_position g
              let cur := { cur with
                reward := get_reward board true
                next_state := get_state board true
                next_board := board }
              let mem := if retain_gate r then mem ++ [cur] else mem
              playLoop ops policy_network g cur mem rest

/-- The board every square of which is empty (stands in for the concrete
start position `Board::default()` initialises `curr_experience` with;
that initial `next_board` value is always overwritten before a push). -/
def emptyBoard : Board where
  pieces := fun _ _ => false
  color_combined := fun _ _ => false
  side_to_move := .White
  status := .Ongoing
  legalMoves := []

/-- `play_against_self` of `src/mdp.rs`, over an abstract engine, an
initial game state and a randomness supply. -/
def play_against_self {G : Type} (ops : GameOps G)
    (policy_network : List ℚ → ℚ) (g : G) (draws : List (ℚ × Nat)) :
    List Experience :=
  playLoop ops policy_network g
    { state := [], action := [], reward := 0, next_state := []
      next_board := emptyBoard }
    [] draws

/-! ## Helper lemmas -/

theorem bitboard_to_vec_length (bb : BitBoard) :
    (bitboard_to_vec bb).length = 64 := by
  simp [bitboard_to_vec]

/-- Specification of the running-maximum fold of `compute_q_max`: the
result is the seed or one of the folded scores, and dominates both. -/
theorem foldl_max_spec (f : ChessMove → ℚ) :
    ∀ (l : List ChessMove) (a : ℚ),
      (l.foldl (fun h m => if h ≤ f m then f m else h) a = a ∨
        ∃ m ∈ l, l.foldl (fun h m => if h ≤ f m then f m else h) a = f m) ∧
      a ≤ l.foldl (fun h m => if h ≤ f m then f m else h) a ∧
      ∀ m ∈ l, f m ≤ l.foldl (fun h m => if h ≤ f m then f m else h) a := by
  intro l
  induction l with
  | nil => intro a; simp
  | cons m ms ih =>
    intro a
    obtain ⟨hmem, hge, hall⟩ := ih (if a ≤ f m then f m else a)
    refine ⟨?_, ?_, ?_⟩
    · rcases hmem with h | ⟨m', hm', h⟩
      · simp only [List.foldl_cons, h]
        split
        · exact Or.inr ⟨m, List.mem_cons_self m ms, rfl⟩
        · exact Or.inl rfl
      · exact Or.inr ⟨m', List.mem_cons_of_mem m hm', by simpa using h⟩
    · refine le_trans ?_ hge
      split
      · assumption
      · exact le_refl a
    · intro m' hm'
      rcases List.mem_cons.mp hm' with rfl | hm'
      · refine le_trans ?_ hge
        split
        · exact le_refl (f m')
        · exact le_of_not_le (by assumption)
      · exact hall m' hm'

/-- With a constant-scoring approximator every step of `move_by_policy`'s
fold replaces the running best, so the fold ends at the last move. -/
theorem mbp_fold_const (nn : List ℚ → ℚ) (st : List ℚ) (pw : Bool) (c : ℚ)
    (hconst : ∀ v, nn v = c) :
    ∀ (l : List ChessMove) (x : ChessMove),
      l.foldl (mbpStep nn st pw) (some (c, x)) = some (c, l.getLastD x) := by
  intro l
  induction l with
  | nil => intro x; rfl
  | cons m ms ih =>
    intro x
    have hstep : mbpStep nn st pw (some (c, x)) m = some (c, m) := by
      simp [mbpStep, qscore, hconst]
    simp only [List.foldl_cons, hstep, ih, List.getLastD_cons]

theorem getLast?_cons_eq_getLastD :
    ∀ (ms : List ChessMove) (m : ChessMove),
      (m :: ms).getLast? = some (ms.getLastD m) := by
  intro ms
  induction ms with
  | nil => intro m; rfl
  | cons m' ms' ih =>
    intro m
    rw [List.getLast?_cons_cons, ih m', List.getLastD_cons]

/-- The fold of `move_by_policy` started from a candidate always yields a
candidate whose move is the seed's or one of the folded moves. -/
theorem mbp_fold_some (nn : List ℚ → ℚ) (st : List ℚ) (pw : Bool) :
    ∀ (l : List ChessMove) (p : ℚ × ChessMove),
      ∃ p', l.foldl (mbpStep nn st pw) (some p) = some p' ∧
        (p'.2 = p.2 ∨ p'.2 ∈ l) := by
  intro l
  induction l with
  | nil => intro p; exact ⟨p, rfl, Or.inl rfl⟩
  | cons m ms ih =>
    intro p
    simp only [List.foldl_cons]
    rcases hs : mbpStep nn st pw (some p) m with _ | p₀
    · exact absurd hs (by simp [mbpStep]; split <;> simp)
    · obtain ⟨p', hp', hmem⟩ := ih p₀
      refine ⟨p', hp', ?_⟩
      have hp₀ : p₀.2 = m ∨ p₀.2 = p.2 := by
        revert hs
        simp only [mbpStep]
        split
        · intro hs; cases hs; exact Or.inl rfl
        · intro hs; cases hs; exact Or.inr rfl
      rcases hmem with h | h
      · rcases hp₀ with h' | h'
        · exact Or.inr (h ▸ h' ▸ List.mem_cons_self m ms)
        · exact Or.inl (h.trans h')
      · exact Or.inr (List.mem_cons_of_mem m h)

/-! ## Concrete boards, moves and engines used by witnesses and
counterexamples -/

/-- e2e4 as a structured move (squares 12 and 28). -/
def mvE2E4 : ChessMove := ⟨12, 28, none⟩

/-- d2d4 as a structured move (squares 11 and 27). -/
def mvD2D4 : ChessMove := ⟨11, 27, none⟩

/-- A board offering exactly the two moves e2e4 and d2d4. -/
def bTwo : Board :=
  { emptyBoard with legalMoves := [mvE2E4, mvD2D4] }

/-- An ongoing board with no legal moves (used only to exercise the
no-move branches). -/
def bStuck : Board := emptyBoard

/-- A checkmated board with Black to move. -/
def bMateBlack : Board :=
  { emptyBoard with status := .Checkmate, side_to_move := .Black }

/-- A stalemate board. -/
def bStale : Board :=
  { emptyBoard with status := .Stalemate }

/-! ## C5 — reward values -/

/-- C5: `get_reward` is 0 on ongoing and stalemate boards; on checkmate
it is −100 when the side to move (the checkmated side) is the mover's
colour and +100 otherwise, the two constants having equal magnitude. -/
theorem C5_reward_values (b : Board) (player_white : Bool) :
    (b.status = .Ongoing → get_reward b player_white = 0) ∧
    (b.status = .Stalemate → get_reward b player_white = 0) ∧
    (b.status = .Checkmate →
      get_reward b player_white =
        (if b.side_to_move = (if player_white then Color.White else Color.Black)
         then -100 else 100)) ∧
    ((100 : ℚ) = -(-100 : ℚ)) := by
  refine ⟨fun h => by simp [get_reward, h], fun h => by simp [get_reward, h],
    fun h => ?_, by norm_num⟩
  cases player_white <;> cases hs : b.side_to_move <;>
    simp [get_reward, h, hs]

/-- Witness for C5 at concrete boards. -/
theorem C5_reward_values_witness :
    get_reward bMateBlack true = 100 ∧ get_reward bStale false = 0 := by
  constructor
  · have h := (C5_reward_values bMateBlack true).2.2.1 rfl
    simpa [bMateBlack, emptyBoard] using h
  · exact (C5_reward_values bStale false).2.1 rfl

/-! ## C3 — Bellman target -/

/-- C3: the label the learner computes is `reward + gamma * C` with `C`
equal to 0 at a terminal next-position and otherwise the maximum
approximator score over the legal moves of the next position, each scored
on `next_state ‖ action`; the learner issues exactly this label. -/
theorem C3_bellman_target (e : Experience) (gamma : ℚ)
    (q_network : List ℚ → ℚ) (player_white : Bool) :
    learn_from_experience [e] gamma q_network player_white =
      [(e.state ++ e.action, bellman_label e gamma q_network player_white)] ∧
    (e.next_board.legalMoves = [] →
      bellman_label e gamma q_network player_white = e.reward) ∧
    (e.next_board.legalMoves ≠ [] →
      ∃ C, bellman_label e gamma q_network player_white = e.reward + gamma * C ∧
        (∃ m ∈ e.next_board.legalMoves,
          C = qscore q_network e.next_state player_white m) ∧
        (∀ m ∈ e.next_board.legalMoves,
          qscore q_network e.next_state player_white m ≤ C)) := by
  refine ⟨rfl, fun h => ?_, fun h => ?_⟩
  · simp [bellman_label, compute_q_max, h]
  · obtain ⟨m, ms, hl⟩ := List.exists_cons_of_ne_nil h
    refine ⟨compute_q_max e.next_board e.next_state q_network player_white,
      rfl, ?_, ?_⟩
    · have hspec := (foldl_max_spec
        (qscore q_network e.next_state player_white) ms
        (qscore q_network e.next_state player_white m)).1
      rcases hspec with h' | ⟨m', hm', h'⟩
      · exact ⟨m, hl ▸ List.mem_cons_self m ms, by simp [compute_q_max, hl, h']⟩
      · exact ⟨m', hl ▸ List.mem_cons_of_mem m hm', by simp [compute_q_max, hl, h']⟩
    · intro m' hm'
      have hspec := foldl_max_spec
        (qscore q_network e.next_state player_white) ms
        (qscore q_network e.next_state player_white m)
      rw [hl] at hm'
      rcases List.mem_cons.mp hm' with rfl | hm'
      · simpa [compute_q_max, hl] using hspec.2.1
      · simpa [compute_q_max, hl] using hspec.2.2 m' hm'

/-- A transition whose next position is terminal (no legal moves). -/
def eTerm : Experience :=
  { state := [], action := [], reward := 100, next_state := []
    next_board := bStuck }

/-- Witness for C3: at a terminal next-position the label is exactly the
reward. -/
theorem C3_bellman_target_witness :
    bellman_label eTerm (4/5) (fun v => (v.length : ℚ)) true = eTerm.reward :=
  (C3_bellman_target eTerm (4/5) (fun v => (v.length : ℚ)) true).2.1 rfl

/-! ## C4 — tie-breaking by ≥ -/

/-- C4: `move_by_policy` compares with `≥`, so a later candidate whose
score equals the running maximum replaces it, and with a constant-scoring
approximator the last legal move in enumeration order is returned. -/
theorem C4_tie_break (nn : List ℚ → ℚ) (b : Board) (player_white : Bool)
    (c : ℚ) (hconst : ∀ v, nn v = c) :
    move_by_policy nn b player_white = b.legalMoves.getLast? ∧
    (∀ st best (m : ChessMove),
      mbpStep nn st player_white (some (qscore nn st player_white m, best)) m =
        some (qscore nn st player_white m, m)) := by
  constructor
  · rw [move_by_policy]
    rcases hl : b.legalMoves with _ | ⟨m, ms⟩
    · simp
    · have h0 : mbpStep nn (get_state b player_white) player_white none m =
          some (c, m) := by
        simp [mbpStep, qscore, hconst]
      simp only [List.isEmpty_cons, List.foldl_cons, h0,
        mbp_fold_const nn (get_state b player_white) player_white c hconst,
        getLast?_cons_eq_getLastD]
      rfl
  · intro st best m
    simp [mbpStep]

/-- Witness for C4: on a board offering e2e4 then d2d4, a constant
approximator makes the policy return d2d4, the later move. -/
theorem C4_tie_break_witness :
    move_by_policy (fun _ => (5 : ℚ)) bTwo true = some mvD2D4 := by
  have h := (C4_tie_break (fun _ => (5 : ℚ)) bTwo true 5 (fun _ => rfl)).1
  rw [h]
  rfl

/-! ## C9 — best_move returns None iff no legal move -/

/-- C9: `move_by_policy` returns `none` exactly when the position has no
legal moves, and any returned move is drawn from the legal-move
enumeration. -/
theorem C9_best_move_none_iff (nn : List ℚ → ℚ) (b : Board)
    (player_white : Bool) :
    (move_by_policy nn b player_white = none ↔ b.legalMoves = []) ∧
    (∀ m, move_by_policy nn b player_white = some m → m ∈ b.legalMoves) := by
  rw [move_by_policy]
  rcases hl : b.legalMoves with _ | ⟨m, ms⟩
  · simp
  · simp only [List.isEmpty_cons, Bool.false_eq_true, if_false]
    obtain ⟨p', hp', hmem⟩ := mbp_fold_some nn (get_state b player_white)
      player_white (m :: ms)
      (qscore nn (get_state b player_white) player_white m, m)
    have hfold : (m :: ms).foldl
        (mbpStep nn (get_state b player_white) player_white) none =
        ms.foldl (mbpStep nn (get_state b player_white) player_white)
          (some (qscore nn (get_state b player_white) player_white m, m)) := by
      simp [mbpStep]
    obtain ⟨p'', hp'', hmem'⟩ := mbp_fold_some nn (get_state b player_white)
      player_white ms
      (qscore nn (get_state b player_white) player_white m, m)
    constructor
    · simp [hfold, hp'']
    · intro m' hm'
      rw [hfold, hp''] at hm'
      have h2 : p''.2 = m' := by simpa using hm'
      cases h2
      rcases hmem' with h | h
      · rw [h]; exact List.mem_cons_self m ms
      · exact List.mem_cons_of_mem m h

/-- Witness for C9 at a concrete two-move board. -/
theorem C9_best_move_none_iff_witness :
    (move_by_policy (fun _ => (0 : ℚ)) bTwo true = none ↔
      bTwo.legalMoves = []) ∧
    mvD2D4 ∈ bTwo.legalMoves :=
  ⟨(C9_best_move_none_iff (fun _ => (0 : ℚ)) bTwo true).1,
   (C9_best_move_none_iff (fun _ => (0 : ℚ)) bTwo true).2 mvD2D4 (by decide)⟩

/-! ## C7 — action encoding -/

/-- The 64-cell vector of a singleton bitboard has exactly one set cell. -/
theorem count_one_from_square :
    ∀ t : Fin 64, (bitboard_to_vec (from_square t)).count 1 = 1 := by decide

/-- The same after the rank mirror. -/
theorem count_one_from_square_rev :
    ∀ t : Fin 64,
      (bitboard_to_vec (reverse_colors (from_square t))).count 1 = 1 := by
  decide

/-- `vec_from_board_square` on a well-formed square token parses the
token and renders the (possibly mirrored) singleton bitboard. -/
theorem vfbs_eq (f r : Char) (pw : Bool) (rest : List Char)
    (h : 97 ≤ f.toNat ∧ f.toNat ≤ 104 ∧ 49 ≤ r.toNat ∧ r.toNat ≤ 56) :
    vec_from_board_square (f :: r :: rest) pw =
      bitboard_to_vec
        (if pw then
          from_square ⟨(r.toNat - 49) * 8 + (f.toNat - 97), by omega⟩
         else
          reverse_colors
            (from_square ⟨(r.toNat - 49) * 8 + (f.toNat - 97), by omega⟩)) := by
  rw [vec_from_board_square, square_from_str]
  rw [dif_pos h]

/-- C7: on a well-formed 4- or 5-character move identifier, the origin
and destination blocks of `get_action` are one-hot, and the promotion
block is all-zero exactly when there is no 5th character, is the `b`,
`n`, `r` one-hot slot for those characters, and the queen slot for any
other 5th character. -/
theorem C7_encode_action (uci : String) (player_white : Bool)
    (f1 r1 f2 r2 : Char) (rest : List Char)
    (hdata : uci.data = f1 :: r1 :: f2 :: r2 :: rest)
    (hrest : rest.length ≤ 1)
    (h1 : 97 ≤ f1.toNat ∧ f1.toNat ≤ 104 ∧ 49 ≤ r1.toNat ∧ r1.toNat ≤ 56)
    (h2 : 97 ≤ f2.toNat ∧ f2.toNat ≤ 104 ∧ 49 ≤ r2.toNat ∧ r2.toNat ≤ 56) :
    ((get_action uci player_white).take 64).count 1 = 1 ∧
    (((get_action uci player_white).drop 64).take 64).count 1 = 1 ∧
    ((get_action uci player_white).drop 128 = [0, 0, 0, 0] ↔ rest = []) ∧
    (rest = ['b'] → (get_action uci player_white).drop 128 = [1, 0, 0, 0]) ∧
    (rest = ['n'] → (get_action uci player_white).drop 128 = [0, 1, 0, 0]) ∧
    (rest = ['r'] → (get_action uci player_white).drop 128 = [0, 0, 1, 0]) ∧
    (∀ p, rest = [p] → p ≠ 'b' → p ≠ 'n' → p ≠ 'r' →
      (get_action uci player_white).drop 128 = [0, 0, 0, 1]) := by
  have hv1 := vfbs_eq f1 r1 player_white [] h1
  have hv2 := vfbs_eq f2 r2 player_white [] h2
  have hl1 : (vec_from_board_square [f1, r1] player_white).length = 64 := by
    rw [hv1]; exact bitboard_to_vec_length _
  have hl2 : (vec_from_board_square [f2, r2] player_white).length = 64 := by
    rw [hv2]; exact bitboard_to_vec_length _
  have hcnt1 : (vec_from_board_square [f1, r1] player_white).count 1 = 1 := by
    rw [hv1]
    split
    · exact count_one_from_square _
    · exact count_one_from_square_rev _
  have hcnt2 : (vec_from_board_square [f2, r2] player_white).count 1 = 1 := by
    rw [hv2]
    split
    · exact count_one_from_square _
    · exact count_one_from_square_rev _
  -- the shape of `get_action` under the parse of the identifier
  have hga : ∀ (promo : List ℚ),
      vec_from_board_square [f1, r1] player_white ++
        vec_from_board_square [f2, r2] player_white ++ promo =
      vec_from_board_square [f1, r1] player_white ++
        (vec_from_board_square [f2, r2] player_white ++ promo) := by
    intro promo
    rw [List.append_assoc]
  rcases rest with _ | ⟨p, rest'⟩
  · -- four-character identifier: no promotion
    have hact : get_action uci player_white =
        vec_from_board_square [f1, r1] player_white ++
          vec_from_board_square [f2, r2] player_white ++ [0, 0, 0, 0] := by
      rw [get_action, hdata]
      rfl
    rw [hact, hga]
    refine ⟨?_, ?_, ?_, ?_, ?_, ?_, ?_⟩
    · rw [List.take_left' hl1, hcnt1]
    · rw [List.drop_left' hl1, List.take_left' hl2, hcnt2]
    · constructor
      · intro; rfl
      · intro
        rw [show (128 : Nat) = 64 + 64 from rfl, ← List.drop_drop,
          List.drop_left' hl1, List.drop_left' hl2]
    · intro h; cases h
    · intro h; cases h
    · intro h; cases h
    · intro p h; cases h
  · -- five-character identifier
    have hr' : rest' = [] := by
      cases rest' with
      | nil => rfl
      | cons a t => simp at hrest
    subst hr'
    have hact : get_action uci player_white =
        vec_from_board_square [f1, r1] player_white ++
          vec_from_board_square [f2, r2] player_white ++
          (if [p] = ([] : List Char) then [0, 0, 0, 0]
           else if [p] = ['b'] then [1, 0, 0, 0]
           else if [p] = ['n'] then [0, 1, 0, 0]
           else if [p] = ['r'] then [0, 0, 1, 0]
           else [0, 0, 0, 1]) := by
      rw [get_action, hdata]
      rfl
    have hdrop : (get_action uci player_white).drop 128 =
        (if [p] = ([] : List Char) then ([0, 0, 0, 0] : List ℚ)
         else if [p] = ['b'] then [1, 0, 0, 0]
         else if [p] = ['n'] then [0, 1, 0, 0]
         else if [p] = ['r'] then [0, 0, 1, 0]
         else [0, 0, 0, 1]) := by
      rw [hact, hga, show (128 : Nat) = 64 + 64 from rfl, ← List.drop_drop,
        List.drop_left' hl1, List.drop_left' hl2]
    refine ⟨?_, ?_, ?_, ?_, ?_, ?_, ?_⟩
    · rw [hact, hga, List.take_left' hl1, hcnt1]
    · rw [hact, hga, List.drop_left' hl1, List.take_left' hl2, hcnt2]
    · rw [hdrop]
      constructor
      · intro h
        exfalso
        revert h
        split
        · simp_all
        · split
          · intro h; exact absurd (congrArg (List.getD · 0 0) h) (by norm_num)
          · split
            · intro h; exact absurd (congrArg (List.getD · 1 0) h) (by norm_num)
            · split
              · intro h
                exact absurd (congrArg (List.getD · 2 0) h) (by norm_num)
              · intro h
                exact absurd (congrArg (List.getD · 3 0) h) (by norm_num)
      · intro h; cases h
    · intro h
      cases h
      rw [hdrop]
      rfl
    · intro h
      cases h
      rw [hdrop]
      rfl
    · intro h
      cases h
      rw [hdrop]
      rfl
    · intro q h hb hn hr
      cases h
      rw [hdrop]
      rw [if_neg (by simp), if_neg (by simpa using hb), if_neg (by simpa using hn),
        if_neg (by simpa using hr)]

/-- Witness for C7 at the promotion move `e7e8q`. -/
theorem C7_encode_action_witness :
    ((get_action "e7e8q" true).take 64).count 1 = 1 ∧
    (get_action "e7e8q" true).drop 128 = [0, 0, 0, 1] :=
  ⟨(C7_encode_action "e7e8q" true 'e' '7' 'e' '8' ['q'] (by decide) (by decide)
      (by decide) (by decide)).1,
   (C7_encode_action "e7e8q" true 'e' '7' 'e' '8' ['q'] (by decide) (by decide)
      (by decide) (by decide)).2.2.2.2.2.2 'q' rfl (by decide) (by decide)
      (by decide)⟩

/-! ## C1 — state-vector shape -/

/-- Piece type of the `k`-th 64-cell block of a state vector (the fixed
block order pawn, bishop, knight, rook, queen, king, repeated). -/
def blockPiece (k : Fin 12) : Piece :=
  match k.val % 6 with
  | 0 => .Pawn | 1 => .Bishop | 2 => .Knight | 3 => .Rook | 4 => .Queen
  | _ => .King

/-- The mover's colour. -/
def moverColor (player_white : Bool) : Color :=
  if player_white then .White else .Black

/-- The opponent's colour. -/
def opponentColor (player_white : Bool) : Color :=
  if player_white then .Black else .White

/-- Colour of the `k`-th block: the mover's for the first six blocks, the
opponent's for the last six. -/
def blockColor (player_white : Bool) (k : Fin 12) : Color :=
  if k.val < 6 then moverColor player_white else opponentColor player_white

/-- Number of pieces of a given type and colour on the board: the number
of squares occupied by that piece type in that colour's occupancy. -/
def numPieces (b : Board) (piece : Piece) (color : Color) : Nat :=
  (List.finRange 64).countP
    (fun sq => b.pieces piece sq && b.color_combined color sq)

/-- The 12 bitboards whose renderings `get_state` concatenates, in
order. -/
def state_boards (b : Board) (player_white : Bool) : List BitBoard :=
  let whites :=
    [bitboard_color_piece b .Pawn .White player_white,
     bitboard_color_piece b .Bishop .White player_white,
     bitboard_color_piece b .Knight .White player_white,
     bitboard_color_piece b .Rook .White player_white,
     bitboard_color_piece b .Queen .White player_white,
     bitboard_color_piece b .King .White player_white]
  let blacks :=
    [bitboard_color_piece b .Pawn .Black player_white,
     bitboard_color_piece b .Bishop .Black player_white,
     bitboard_color_piece b .Knight .Black player_white,
     bitboard_color_piece b .Rook .Black player_white,
     bitboard_color_piece b .Queen .Black player_white,
     bitboard_color_piece b .King .Black player_white]
  if player_white then whites ++ blacks else blacks ++ whites

theorem get_state_eq_join (b : Board) (player_white : Bool) :
    get_state b player_white =
      ((state_boards b player_white).map bitboard_to_vec).flatten := by
  cases player_white <;>
    simp [get_state, state_boards, List.append_assoc]

/-- The display traversal visits each square exactly once. -/
theorem disp_perm :
    ((List.finRange 64).map dispSq).Perm (List.finRange 64) := by decide

/-- The rank-mirror traversal visits each square exactly once. -/
theorem xorIdx_perm :
    ((List.finRange 64).map
        (fun i : Fin 64 => (⟨i.val ^^^ 56, xor56_lt i.val i.isLt⟩ : Fin 64))).Perm
      (List.finRange 64) := by decide

/-- The number of 1-cells of a rendered bitboard is the number of squares
it contains. -/
theorem count_one_btv (bb : BitBoard) :
    (bitboard_to_vec bb).count 1 =
      (List.finRange 64).countP (fun i => bb i) := by
  rw [bitboard_to_vec, List.count, List.countP_map]
  have h1 : ((fun x => x == (1 : ℚ)) ∘
      (fun i => if bb (dispSq i) then (1 : ℚ) else 0)) =
      (fun i => bb i) ∘ dispSq := by
    funext i
    rcases hb : bb (dispSq i) <;> simp [hb, Function.comp]
  rw [h1, ← List.countP_map]
  exact disp_perm.countP_eq _

/-- Rank-mirroring a bitboard preserves its square count. -/
theorem countP_reverse_colors (bb : BitBoard) :
    (List.finRange 64).countP (fun i => reverse_colors bb i) =
      (List.finRange 64).countP (fun i => bb i) := by
  rw [show (fun i => reverse_colors bb i) =
      (fun i => bb i) ∘
        (fun i : Fin 64 => (⟨i.val ^^^ 56, xor56_lt i.val i.isLt⟩ : Fin 64))
    from rfl, ← List.countP_map]
  exact xorIdx_perm.countP_eq _

/-- Count of 1-cells of any block of a state vector: the number of pieces
of that type and colour, for either mover identity. -/
theorem count_one_bcp (b : Board) (p : Piece) (c : Color)
    (player_white : Bool) :
    (bitboard_to_vec (bitboard_color_piece b p c player_white)).count 1 =
      numPieces b p c := by
  cases player_white
  · rw [show bitboard_color_piece b p c false =
        reverse_colors (bb_and (b.pieces p) (b.color_combined c)) from rfl,
      count_one_btv, countP_reverse_colors]
    rfl
  · rw [show bitboard_color_piece b p c true =
        bb_and (b.pieces p) (b.color_combined c) from rfl, count_one_btv]
    rfl

/-- The 64-cell slice at offset `k·64` of a concatenation of 64-cell
blocks is the `k`-th block. -/
theorem join_blocks_take_drop :
    ∀ (L : List (List ℚ)), (∀ l ∈ L, l.length = 64) →
      ∀ (k : Nat), k < L.length →
        ((L.flatten).drop (k * 64)).take 64 = L.getD k [] := by
  intro L
  induction L with
  | nil =>
    intro _ k hk
    exact absurd hk (by simp)
  | cons l L ih =>
    intro hlen k hk
    cases k with
    | zero =>
      have hl : l.length = 64 := hlen l (List.mem_cons_self l L)
      simp only [Nat.zero_mul, List.drop_zero, List.flatten_cons, List.getD_cons_zero]
      exact List.take_left' hl
    | succ k =>
      have hl : l.length = 64 := hlen l (List.mem_cons_self l L)
      have harith : (k + 1) * 64 = l.length + k * 64 := by rw [hl]; ring
      rw [List.flatten_cons, harith, ← List.drop_drop, List.drop_left,
        List.getD_cons_succ]
      exact ih (fun l' hl' => hlen l' (List.mem_cons_of_mem l hl')) k
        (Nat.lt_of_succ_lt_succ hk)

theorem state_boards_length (b : Board) (player_white : Bool) :
    (state_boards b player_white).length = 12 := by
  cases player_white <;> rfl

set_option maxRecDepth 8000 in
/-- The `k`-th rendered block of the state is the rendering of the
bitboard of the `k`-th block's piece type and colour. -/
theorem blocks_of_state (b : Board) (player_white : Bool) (k : Fin 12) :
    ((state_boards b player_white).map bitboard_to_vec).getD k.val [] =
      bitboard_to_vec
        (bitboard_color_piece b (blockPiece k) (blockColor player_white k)
          player_white) := by
  cases player_white <;> fin_cases k <;> rfl

/-- Counterexample to C1 as stated: the state vector of a position has
length 768, not 908. -/
theorem C1_encode_state_908_cex :
    ¬ ((get_state emptyBoard true).length = 908) := by
  have h : (get_state emptyBoard true).length = 768 := by
    simp [get_state, bitboard_to_vec]
  omega

/-- C1 (amended): `get_state` always has length 768 = 12·64, every cell
is 0 or 1, and the `k`-th 64-cell block contains exactly one 1-cell per
piece of the block's type and colour present on the board. -/
theorem C1_encode_state_shape (b : Board) (player_white : Bool) :
    (get_state b player_white).length = 768 ∧
    (∀ x ∈ get_state b player_white, x = 0 ∨ x = 1) ∧
    (∀ k : Fin 12,
      (((get_state b player_white).drop (k.val * 64)).take 64).count 1 =
        numPieces b (blockPiece k) (blockColor player_white k)) := by
  refine ⟨?_, ?_, ?_⟩
  · cases player_white <;> simp [get_state, bitboard_to_vec]
  · intro x hx
    rw [get_state_eq_join, List.mem_flatten] at hx
    obtain ⟨blk, hblk, hx⟩ := hx
    rw [List.mem_map] at hblk
    obtain ⟨bb, _, rfl⟩ := hblk
    rw [bitboard_to_vec, List.mem_map] at hx
    obtain ⟨i, _, rfl⟩ := hx
    split
    · exact Or.inr rfl
    · exact Or.inl rfl
  · intro k
    have hlen : ∀ l ∈ (state_boards b player_white).map bitboard_to_vec,
        l.length = 64 := by
      intro l hl
      rw [List.mem_map] at hl
      obtain ⟨bb, _, rfl⟩ := hl
      exact bitboard_to_vec_length bb
    rw [get_state_eq_join,
      join_blocks_take_drop _ hlen k.val
        (by rw [List.length_map, state_boards_length]; exact k.isLt),
      blocks_of_state, count_one_bcp]

/-- Witness for C1 (amended) at a concrete board. -/
theorem C1_encode_state_shape_witness :
    (get_state emptyBoard true).length = 768 :=
  (C1_encode_state_shape emptyBoard true).1

/-! ## C2 — mirroring relation between the two encodings -/

/-- Cell `j` of a rendered bitboard reports the square displayed there. -/
theorem btv_getD (bb : BitBoard) (j : Nat) (h : j < 64) :
    (bitboard_to_vec bb).getD j 0 =
      if bb (dispSq ⟨j, h⟩) then 1 else 0 := by
  rw [bitboard_to_vec,
    List.getD_eq_getElem _ _ (by simpa using h), List.getElem_map]
  congr 1
  simp [List.getElem_finRange]

/-- The display cells of a rank-mirrored bitboard are the display cells
of the original with cell index `XOR 56`. -/
theorem btv_rev_getD (bb : BitBoard) (i : Fin 64) :
    (bitboard_to_vec (reverse_colors bb)).getD (i.val ^^^ 56) 0 =
      (bitboard_to_vec bb).getD i.val 0 := by
  have key : ∀ n, n < 64 → (63 - (n ^^^ 56)) ^^^ 56 = 63 - n := by decide
  rw [btv_getD _ _ (xor56_lt i.val i.isLt), btv_getD _ _ i.isLt]
  have hsq : reverse_colors bb (dispSq ⟨i.val ^^^ 56, xor56_lt i.val i.isLt⟩) =
      bb (dispSq i) := congrArg bb (Fin.ext (key i.val i.isLt))
  rw [hsq]

/-- Cell `k·64 + off` of a concatenation of 64-cell blocks is cell `off`
of the `k`-th block. -/
theorem flatten_blocks_getD :
    ∀ (L : List (List ℚ)), (∀ l ∈ L, l.length = 64) →
      ∀ (k : Nat), k < L.length → ∀ (off : Nat), off < 64 →
        (L.flatten).getD (k * 64 + off) 0 = (L.getD k []).getD off 0 := by
  intro L
  induction L with
  | nil =>
    intro _ k hk
    exact absurd hk (by simp)
  | cons l L ih =>
    intro hlen k hk off hoff
    have hl : l.length = 64 := hlen l (List.mem_cons_self l L)
    cases k with
    | zero =>
      rw [Nat.zero_mul, Nat.zero_add, List.flatten_cons,
        List.getD_append _ _ _ _ (by omega), List.getD_cons_zero]
    | succ k =>
      have harith : (k + 1) * 64 + off = l.length + (k * 64 + off) := by
        rw [hl]; ring
      rw [List.flatten_cons, harith,
        List.getD_append_right _ _ _ _ (by omega), Nat.add_sub_cancel_left,
        List.getD_cons_succ]
      exact ih (fun l' hl' => hlen l' (List.mem_cons_of_mem l hl')) k
        (Nat.lt_of_succ_lt_succ hk) off hoff

theorem state_blocks_length (b : Board) (player_white : Bool) :
    ∀ l ∈ (state_boards b player_white).map bitboard_to_vec,
      l.length = 64 := by
  intro l hl
  rw [List.mem_map] at hl
  obtain ⟨bb, _, rfl⟩ := hl
  exact bitboard_to_vec_length bb

/-- The block piece type is 6-periodic. -/
theorem blockPiece_add_six (k : Fin 6) :
    blockPiece ⟨6 + k.val, by omega⟩ = blockPiece ⟨k.val, by omega⟩ := by
  fin_cases k <;> rfl

/-- A board with a single white queen on d1 (square 3). -/
def qBoard : Board where
  pieces := fun p i => p == Piece.Queen && i == (3 : Fin 64)
  color_combined := fun c i => c == Color.White && i == (3 : Fin 64)
  side_to_move := .White
  status := .Ongoing
  legalMoves := []

set_option maxRecDepth 40000 in
/-- Counterexample to C2 as stated: with a lone white queen on d1, the
queen block of `get_state(P, true)` has its 1 at cell 60, but cell
63 − 60 = 3 of the queen block of the opponent half of
`get_state(P, false)` is 0 (the mirrored cell is 60 XOR 56 = 4, a rank
mirror, not the 180-degree rotation 63 − 60). -/
theorem C2_mirror_cex :
    ¬ ((get_state qBoard true).getD (4 * 64 + 60) 0 =
        (get_state qBoard false).getD (384 + 4 * 64 + (63 - 60)) 0) := by
  decide

/-- C2 (amended): for every board, cell `i` of mover-block `k` of
`get_state(P, true)` equals cell `i XOR 56` (the rank mirror) of
opponent-block `k` of `get_state(P, false)`. -/
theorem C2_mirror (b : Board) (k : Fin 6) (i : Fin 64) :
    (get_state b true).getD (k.val * 64 + i.val) 0 =
      (get_state b false).getD (384 + k.val * 64 + (i.val ^^^ 56)) 0 := by
  rw [get_state_eq_join b true, get_state_eq_join b false]
  rw [flatten_blocks_getD _ (state_blocks_length b true) k.val
    (by rw [List.length_map, state_boards_length]; omega) i.val i.isLt]
  have h384 : 384 + k.val * 64 + (i.val ^^^ 56) =
      (6 + k.val) * 64 + (i.val ^^^ 56) := by ring
  rw [h384, flatten_blocks_getD _ (state_blocks_length b false) (6 + k.val)
    (by rw [List.length_map, state_boards_length]; omega) (i.val ^^^ 56)
    (xor56_lt i.val i.isLt)]
  have hT := blocks_of_state b true ⟨k.val, by omega⟩
  have hF := blocks_of_state b false ⟨6 + k.val, by omega⟩
  simp only [Fin.val_mk] at hT hF
  rw [hT, hF, blockPiece_add_six]
  have hcT : blockColor true ⟨k.val, by omega⟩ = Color.White := by
    simp [blockColor, moverColor, k.isLt]
  have hcF : blockColor false ⟨6 + k.val, by omega⟩ = Color.White := by
    simp [blockColor, opponentColor]
  rw [hcT, hcF]
  rw [show bitboard_color_piece b (blockPiece ⟨k.val, by omega⟩) Color.White
      true = bb_and (b.pieces (blockPiece ⟨k.val, by omega⟩))
        (b.color_combined Color.White) from rfl,
    show bitboard_color_piece b (blockPiece ⟨k.val, by omega⟩) Color.White
      false = reverse_colors (bb_and
        (b.pieces (blockPiece ⟨k.val, by omega⟩))
        (b.color_combined Color.White)) from rfl]
  exact (btv_rev_getD
    (bb_and (b.pieces (blockPiece ⟨k.val, by omega⟩))
      (b.color_combined Color.White)) i).symm

set_option maxRecDepth 40000 in
/-- Witness for C2 (amended) at the lone-queen board: cell 60 of the
mover queen block maps to cell 60 XOR 56 = 4 of the opponent queen
block. -/
theorem C2_mirror_witness :
    (get_state qBoard true).getD (4 * 64 + 60) 0 =
      (get_state qBoard false).getD (384 + 4 * 64 + (60 ^^^ 56)) 0 :=
  C2_mirror qBoard 4 60

/-! ## C6 — the exploration and retention gates -/

/-- A uniform grid of 20 draw values in (0,1) (the midpoints
1/40, 3/40, …, 39/40), used to exhibit the joint behaviour of the two
gates under a uniform draw. -/
def draw_grid : List ℚ :=
  (List.range 20).map (fun i => mkRat (2 * (i : Int) + 1) 40)

/-- Counterexample to C6 as stated: on a uniform grid of draws the
retention gate fires with frequency 4/20 and the policy gate with
frequency 10/20, but they never fire together (joint frequency 0 instead
of the 2/20 independence would give), because `play_against_self`
evaluates both gates on the same single draw of the turn. -/
theorem C6_gates_cex :
    (draw_grid.countP
        (fun r => retain_gate r && moved_by_policy_gate r)) * 20 ≠
      (draw_grid.countP (fun r => retain_gate r)) *
        (draw_grid.countP (fun r => moved_by_policy_gate r)) ∧
    retain_gate (mkRat 1 10) = true ∧
    moved_by_policy_gate (mkRat 7 10) = true := by
  refine ⟨?_, by decide, by decide⟩
  decide

/-- C6 (amended): `play_against_self` draws a single random value per
A-turn and evaluates both the 50% exploration gate and the 20% retention
gate on it, so the gates are fully dependent: whenever the retention gate
fires, the exploration gate chose the uniformly random move, never the
policy move. -/
theorem C6_gates_shared_draw (r : ℚ) (hr : retain_gate r = true) :
    moved_by_policy_gate r = false := by
  have h5 : r < mkRat 1 5 := of_decide_eq_true hr
  rw [Rat.mkRat_eq_div] at h5
  have : ¬ (mkRat 1 2 < r) := by rw [Rat.mkRat_eq_div]; push_cast at h5 ⊢; linarith
  exact decide_eq_false this

/-- Witness for C6 (amended). -/
theorem C6_gates_shared_draw_witness :
    moved_by_policy_gate (mkRat 1 10) = false :=
  C6_gates_shared_draw (mkRat 1 10) (by decide)

/-! ## C8 — the material-balance heuristic -/

/-- The conventional piece values used by `point_difference`. -/
def pieceValue : Piece → ℚ
  | .Pawn => 1 | .Bishop => 3 | .Knight => 3 | .Rook => 5 | .Queen => 10
  | .King => 0

/-- One cell's contribution inside `point_difference`'s double loop. -/
def pdCell (state : List ℚ) (i j' : Nat) : ℚ :=
  let j := i * 64 + j'
  let val := if i < 6 then state.getD j 0 else -(state.getD j 0)
  if i % 6 = 0 then val
  else if i % 6 = 1 ∨ i % 6 = 2 then 3 * val
  else if i % 6 = 3 then 5 * val
  else if i % 6 = 4 then 10 * val
  else 0

theorem foldl_add_eq {α : Type} (f : α → ℚ) :
    ∀ (l : List α) (init : ℚ),
      l.foldl (fun a x => a + f x) init = init + (l.map f).sum := by
  intro l
  induction l with
  | nil => intro init; simp
  | cons x l ih => intro init; simp [ih, add_assoc]

theorem foldl_congr_q {α : Type} :
    ∀ (l : List α) (f g : ℚ → α → ℚ) (init : ℚ),
      (∀ c x, f c x = g c x) → l.foldl f init = l.foldl g init := by
  intro l
  induction l with
  | nil => intro f g init _; rfl
  | cons x l ih =>
    intro f g init h
    simp only [List.foldl_cons, h]
    exact ih f g (g init x) h

theorem list_range_map_sum (f : Nat → ℚ) :
    ∀ n, ((List.range n).map f).sum = ∑ i ∈ Finset.range n, f i := by
  intro n
  induction n with
  | zero => simp
  | succ n ih =>
    rw [List.range_succ, List.map_append, List.sum_append,
      Finset.sum_range_succ, ih]
    simp

/-- `point_difference` as a double sum of cell contributions. -/
theorem point_difference_eq_sum (s : List ℚ) :
    point_difference s =
      2 * ∑ i ∈ Finset.range 12, ∑ j ∈ Finset.range 64, pdCell s i j := by
  have hinner : ∀ (i : Nat) (c : ℚ),
      (List.range 64).foldl (fun count j' =>
        let j := i * 64 + j'
        let val := if i < 6 then s.getD j 0 else -(s.getD j 0)
        count +
          (if i % 6 = 0 then val
           else if i % 6 = 1 ∨ i % 6 = 2 then 3 * val
           else if i % 6 = 3 then 5 * val
           else if i % 6 = 4 then 10 * val
           else 0)) c =
        c + ((List.range 64).map (pdCell s i)).sum := fun i c =>
    foldl_add_eq (pdCell s i) (List.range 64) c
  have houter : (List.range 12).foldl (fun count i =>
      (List.range 64).foldl (fun count j' =>
        let j := i * 64 + j'
        let val := if i < 6 then s.getD j 0 else -(s.getD j 0)
        count +
          (if i % 6 = 0 then val
           else if i % 6 = 1 ∨ i % 6 = 2 then 3 * val
           else if i % 6 = 3 then 5 * val
           else if i % 6 = 4 then 10 * val
           else 0)) count) 0 =
      (List.range 12).foldl (fun count i =>
        count + ((List.range 64).map (pdCell s i)).sum) 0 :=
    foldl_congr_q _ _ _ 0 (fun c i => hinner i c)
  rw [point_difference, houter,
    foldl_add_eq (fun i => ((List.range 64).map (pdCell s i)).sum)
      (List.range 12) 0]
  rw [list_range_map_sum]
  congr 1
  rw [zero_add]
  exact Finset.sum_congr rfl (fun i _ => list_range_map_sum (pdCell s i) 64)

/-- The weight `point_difference` applies to block `i`, by `i % 6`. -/
def blockWeight (i : Nat) : ℚ :=
  if i % 6 = 0 then 1
  else if i % 6 = 1 ∨ i % 6 = 2 then 3
  else if i % 6 = 3 then 5
  else if i % 6 = 4 then 10
  else 0

theorem pdCell_eq (s : List ℚ) (i j : Nat) :
    pdCell s i j =
      (if i < 6 then (1 : ℚ) else -1) * blockWeight i *
        s.getD (i * 64 + j) 0 := by
  simp only [pdCell, blockWeight]
  split_ifs <;> ring

theorem blockWeight_eq_pieceValue (k : Fin 12) :
    blockWeight k.val = pieceValue (blockPiece k) := by
  fin_cases k <;> rfl

theorem sum_range_getD :
    ∀ (t : List ℚ), ∑ j ∈ Finset.range t.length, t.getD j 0 = t.sum := by
  intro t
  induction t with
  | nil => simp
  | cons a t ih =>
    rw [List.length_cons, Finset.sum_range_succ']
    simp only [List.getD_cons_succ, List.getD_cons_zero, ih]
    rw [List.sum_cons, add_comm]

theorem sum_eq_count_one :
    ∀ (t : List ℚ), (∀ x ∈ t, x = 0 ∨ x = 1) →
      t.sum = (t.count 1 : ℚ) := by
  intro t
  induction t with
  | nil => intro _; simp
  | cons a t ih =>
    intro h
    have ha := h a (List.mem_cons_self a t)
    have ht := ih (fun x hx => h x (List.mem_cons_of_mem a hx))
    rcases ha with rfl | rfl
    · rw [List.sum_cons, List.count_cons, ht]
      norm_num
    · rw [List.sum_cons, List.count_cons, ht]
      push_cast
      norm_num [add_comm]

/-- The 64 consecutive cells at offset `off` sum to the count of 1-cells
of the corresponding 64-cell block, for a 0/1-valued vector. -/
theorem sum_getD_eq_count (s : List ℚ) (off : Nat) (hoff : off + 64 ≤ s.length)
    (hbits : ∀ x ∈ s, x = 0 ∨ x = 1) :
    ∑ j ∈ Finset.range 64, s.getD (off + j) 0 =
      (((s.drop off).take 64).count 1 : ℚ) := by
  have htlen : ((s.drop off).take 64).length = 64 := by
    rw [List.length_take, List.length_drop]
    omega
  have hpt : ∀ j ∈ Finset.range 64,
      s.getD (off + j) 0 = ((s.drop off).take 64).getD j 0 := by
    intro j hj
    rw [Finset.mem_range] at hj
    rw [List.getD_eq_getElem s 0 (by omega),
      List.getD_eq_getElem _ 0 (by omega)]
    simp only [List.getElem_take, List.getElem_drop]
  rw [Finset.sum_congr rfl hpt]
  have := sum_range_getD ((s.drop off).take 64)
  rw [htlen] at this
  rw [this]
  exact sum_eq_count_one _ (fun x hx =>
    hbits x (List.mem_of_mem_drop (List.mem_of_mem_take hx)))

/-- C8: `point_difference` equals twice the signed, piece-value-weighted
sum of the per-block 1-cell counts of the state vector: mover blocks
(the first six) count positively, opponent blocks negatively, with
values pawn 1, bishop 3, knight 3, rook 5, queen 10, king 0. -/
theorem C8_point_difference (s : List ℚ) (hlen : s.length = 768)
    (hbits : ∀ x ∈ s, x = 0 ∨ x = 1) :
    point_difference s =
      2 * ∑ k : Fin 12, (if k.val < 6 then (1 : ℚ) else -1) *
        pieceValue (blockPiece k) *
        (((s.drop (k.val * 64)).take 64).count 1 : ℚ) := by
  rw [point_difference_eq_sum]
  congr 1
  rw [← Fin.sum_univ_eq_sum_range
    (fun i => ∑ j ∈ Finset.range 64, pdCell s i j) 12]
  refine Finset.sum_congr rfl (fun k _ => ?_)
  calc ∑ j ∈ Finset.range 64, pdCell s k.val j
      = ∑ j ∈ Finset.range 64,
          (if k.val < 6 then (1 : ℚ) else -1) * blockWeight k.val *
            s.getD (k.val * 64 + j) 0 :=
        Finset.sum_congr rfl (fun j _ => pdCell_eq s k.val j)
    _ = (if k.val < 6 then (1 : ℚ) else -1) * blockWeight k.val *
          ∑ j ∈ Finset.range 64, s.getD (k.val * 64 + j) 0 :=
        (Finset.mul_sum _ _ _).symm
    _ = (if k.val < 6 then (1 : ℚ) else -1) * pieceValue (blockPiece k) *
          (((s.drop (k.val * 64)).take 64).count 1 : ℚ) := by
        rw [sum_getD_eq_count s (k.val * 64)
            (by have := k.isLt; omega) hbits,
          blockWeight_eq_pieceValue]

set_option maxRecDepth 8000 in
/-- Witness for C8 at the all-zero state vector. -/
theorem C8_point_difference_witness :
    point_difference (List.replicate 768 (0 : ℚ)) =
      2 * ∑ k : Fin 12, (if k.val < 6 then (1 : ℚ) else -1) *
        pieceValue (blockPiece k) *
        ((((List.replicate 768 (0 : ℚ)).drop (k.val * 64)).take 64).count 1 :
          ℚ) :=
  C8_point_difference _ (by simp)
    (fun x hx => Or.inl (List.eq_of_mem_replicate hx))

/-! ## C10 — the recorder only holds White-perspective transitions -/

/-- Any move returned by the policy is one of the board's legal moves. -/
theorem move_by_policy_mem (nn : List ℚ → ℚ) (b : Board)
    (player_white : Bool) (m : ChessMove)
    (h : move_by_policy nn b player_white = some m) : m ∈ b.legalMoves := by
  rw [move_by_policy] at h
  rcases hl : b.legalMoves with _ | ⟨m₀, ms⟩
  · rw [hl] at h
    simp at h
  · rw [hl] at h
    simp only [List.isEmpty_cons, Bool.false_eq_true, if_false] at h
    have hfold : (m₀ :: ms).foldl
        (mbpStep nn (get_state b player_white) player_white) none =
        ms.foldl (mbpStep nn (get_state b player_white) player_white)
          (some (qscore nn (get_state b player_white) player_white m₀, m₀)) := by
      simp [mbpStep]
    obtain ⟨p', hp', hmem⟩ := mbp_fold_some nn (get_state b player_white)
      player_white ms
      (qscore nn (get_state b player_white) player_white m₀, m₀)
    rw [hfold, hp'] at h
    have h2 : p'.2 = m := by simpa using h
    cases h2
    rcases hmem with h' | h'
    · rw [h']
      exact List.mem_cons_self m₀ ms
    · exact List.mem_cons_of_mem m₀ h'

/-- Any move returned by the random chooser is one of the board's legal
moves. -/
theorem make_random_move_mem (b : Board) (k : Nat) (m : ChessMove)
    (h : make_random_move b k = some m) : m ∈ b.legalMoves := by
  rw [make_random_move] at h
  split at h
  · cases h
  · exact List.get?_mem h

/-- Invariant of the self-play loop: every recorded experience's state,
action and next-state were encoded with the mover identity fixed to
White, and its action is a legal move of the very position recorded as
its state. -/
theorem playLoop_white_inv {G : Type} (ops : GameOps G)
    (nn : List ℚ → ℚ) :
    ∀ (draws : List (ℚ × Nat)) (g : G) (cur : Experience)
      (mem : List Experience),
      (∀ e ∈ mem, ∃ b mv b', e.state = get_state b true ∧
        mv ∈ b.legalMoves ∧ e.action = get_action (moveToUci mv) true ∧
        e.next_state = get_state b' true) →
      ∀ e ∈ playLoop ops nn g cur mem draws,
        ∃ b mv b', e.state = get_state b true ∧ mv ∈ b.legalMoves ∧
          e.action = get_action (moveToUci mv) true ∧
          e.next_state = get_state b' true := by
  intro draws
  induction draws with
  | nil =>
    intro g cur mem hmem e he
    rw [playLoop] at he
    exact hmem e he
  | cons d rest ih =>
    obtain ⟨r, k⟩ := d
    intro g cur mem hmem e he
    rw [playLoop] at he
    rcases hres : ops.result g with _ | u
    · rw [hres] at he
      dsimp only at he
      rcases hsel : (if moved_by_policy_gate r
          then move_by_policy nn (ops.current_position g) true
          else make_random_move (ops.current_position g) k) with _ | selected
      · rw [hsel] at he
        exact hmem e he
      · rw [hsel] at he
        have hselmem : selected ∈ (ops.current_position g).legalMoves := by
          rcases hg : moved_by_policy_gate r with _ | _
          · rw [hg] at hsel
            simp only [Bool.false_eq_true, if_false] at hsel
            exact make_random_move_mem _ _ _ hsel
          · rw [hg] at hsel
            simp only [if_true] at hsel
            exact move_by_policy_mem _ _ _ _ hsel
        dsimp only at he
        rcases hres2 : ops.result (ops.make_move g selected) with _ | u2
        · rw [hres2] at he
          dsimp only at he
          rcases hdraw : ops.can_declare_draw (ops.make_move g selected)
          · rw [hdraw] at he
            simp only [Bool.false_eq_true, if_false] at he
            rcases hbm : move_by_policy nn
                (ops.current_position (ops.make_move g selected)) false
              with _ | black_move
            · rw [hbm] at he
              exact hmem e he
            · rw [hbm] at he
              dsimp only at he
              refine ih _ _ _ ?_ e he
              intro e' he'
              rcases hret : retain_gate r
              · rw [hret] at he'
                simp only [Bool.false_eq_true, if_false] at he'
                exact hmem e' he'
              · rw [hret] at he'
                simp only [if_true] at he'
                rcases List.mem_append.mp he' with h' | h'
                · exact hmem e' h'
                · have he'' := List.mem_singleton.mp h'
                  subst he''
                  exact ⟨ops.current_position g, selected,
                    ops.current_position
                      (ops.make_move (ops.make_move g selected) black_move),
                    rfl, hselmem, rfl, rfl⟩
          · rw [hdraw] at he
            simp only [if_true] at he
            rcases List.mem_append.mp he with h' | h'
            · exact hmem e h'
            · have he'' := List.mem_singleton.mp h'
              subst he''
              exact ⟨ops.current_position g, selected,
                ops.current_position (ops.make_move g selected),
                rfl, hselmem, rfl, rfl⟩
        · rw [hres2] at he
          dsimp only at he
          rcases List.mem_append.mp he with h' | h'
          · exact hmem e h'
          · have he'' := List.mem_singleton.mp h'
            subst he''
            exact ⟨ops.current_position g, selected,
              ops.current_position (ops.make_move g selected),
              rfl, hselmem, rfl, rfl⟩
    · rw [hres] at he
      exact hmem e he

/-- C10: every transition returned by the self-play driver was recorded
from White's perspective: its state, action and next-state are encodings
with mover identity `true`, and its action is a legal move of the White
position recorded as its state (so no transition ever records Black's
reply as its action). -/
theorem C10_white_perspective {G : Type} (ops : GameOps G)
    (nn : List ℚ → ℚ) (g : G) (draws : List (ℚ × Nat)) :
    ∀ e ∈ play_against_self ops nn g draws,
      ∃ b mv b', e.state = get_state b true ∧ mv ∈ b.legalMoves ∧
        e.action = get_action (moveToUci mv) true ∧
        e.next_state = get_state b' true := by
  intro e he
  exact playLoop_white_inv ops nn draws g _ [] (fun e' he' => absurd he' (by simp))
    e he

/-- A scripted one-move engine: the game is over right after White's
first move; the position is `bTwo` before it and `bMateBlack` after. -/
def witOps : GameOps Nat where
  result := fun n => if n ≥ 1 then some () else none
  current_position := fun n => if n = 0 then bTwo else bMateBlack
  make_move := fun n _ => n + 1
  can_declare_draw := fun _ => false

/-- The single experience the scripted engine produces. -/
def expWit : Experience where
  state := get_state bTwo true
  action := get_action (moveToUci mvD2D4) true
  reward := get_reward bMateBlack true
  next_state := get_state bMateBlack true
  next_board := bMateBlack

/-- Witness for C10: one concrete self-play run records exactly one
experience, and it satisfies the White-perspective property. -/
theorem C10_white_perspective_witness :
    expWit ∈ play_against_self witOps (fun _ => (0 : ℚ)) 0 [(mkRat 3 4, 0)] ∧
    ∃ b mv b', expWit.state = get_state b true ∧ mv ∈ b.legalMoves ∧
      expWit.action = get_action (moveToUci mv) true ∧
      expWit.next_state = get_state b' true := by
  have hrun : play_against_self witOps (fun _ => (0 : ℚ)) 0 [(mkRat 3 4, 0)] =
      [expWit] := by rfl
  have hmem : expWit ∈
      play_against_self witOps (fun _ => (0 : ℚ)) 0 [(mkRat 3 4, 0)] := by
    rw [hrun]
    exact List.mem_singleton_self expWit
  exact ⟨hmem,
    C10_white_perspective witOps (fun _ => (0 : ℚ)) 0 [(mkRat 3 4, 0)]
      expWit hmem⟩
